import Mathlib

set_option linter.unusedSectionVars false

/-!
Verification of the Huffman compression tool (src/huffman_tool.py).

The development shallowly embeds the program: Python's mutable list heap
(module heapq) becomes pure list transformations, the insertion-ordered
Python dict becomes an association list with dict update semantics, the
bit strings of '0'/'1' characters become lists of booleans ('0' ↦ false,
'1' ↦ true), bytes become natural numbers below 256, and raised Python
exceptions become an explicit error type.
-/

/-- Embedding of class HuffmanNode: char (None for internal nodes), freq,
and optional left/right children. -/
inductive HNode where
  | mk : Option Char → Nat → Option HNode → Option HNode → HNode
deriving Repr

instance : Inhabited HNode := ⟨.mk none 0 none none⟩

/-- Field access self.char. -/
def HNode.char : HNode → Option Char
  | .mk c _ _ _ => c

/-- Field access self.freq. -/
def HNode.freq : HNode → Nat
  | .mk _ f _ _ => f

/-- Field access self.left. -/
def HNode.left : HNode → Option HNode
  | .mk _ _ l _ => l

/-- Field access self.right. -/
def HNode.right : HNode → Option HNode
  | .mk _ _ _ r => r

/-- Embedding of HuffmanNode.__lt__: comparison by frequency only. -/
def HNode.lt (a b : HNode) : Bool := a.freq < b.freq

namespace Heapq

/-!
Embedding of the CPython heapq module functions used by the tool
(heapify, heappop, heappush, and their helpers _siftdown and _siftup),
following the module's reference implementation.  The mutable Python list
is threaded as a value; in-place element assignment becomes List.set.
-/

variable {α : Type} [Inhabited α] (ltb : α → α → Bool)

/-- Loop of heapq._siftdown: bubble newitem toward startpos, moving each
strictly greater parent (the element of index (pos - 1) / 2) down; returns
the list before the final write, together with the final position.  The
first argument is a structural fuel counter: the loop strictly decreases
pos, so any fuel of at least pos completes the loop. -/
def siftdownLoop (startpos : Nat) (newitem : α) : Nat → List α → Nat →
    List α × Nat
  | 0, heap, pos => (heap, pos)
  | fuel + 1, heap, pos =>
    if startpos < pos then
      if ltb newitem (heap.getD ((pos - 1) / 2) default) then
        siftdownLoop startpos newitem fuel
          (heap.set pos (heap.getD ((pos - 1) / 2) default)) ((pos - 1) / 2)
      else (heap, pos)
    else (heap, pos)

/-- Embedding of heapq._siftdown(heap, startpos, pos). -/
def siftdown (heap : List α) (startpos pos : Nat) : List α :=
  let newitem := heap.getD pos default
  let hp := siftdownLoop ltb startpos newitem pos heap pos
  hp.1.set hp.2 newitem

/-- Child selection of heapq._siftup: the right child 2*pos+2 when it exists
and the left child is not strictly smaller, otherwise the left child
2*pos+1. -/
def childsel (heap : List α) (pos : Nat) : Nat :=
  if 2 * pos + 2 < heap.length &&
      !(ltb (heap.getD (2 * pos + 1) default) (heap.getD (2 * pos + 2) default)) then
    2 * pos + 2
  else 2 * pos + 1

/-- The selected child lies strictly between pos and the heap length. -/
theorem childsel_lt (heap : List α) (pos : Nat) (h : 2 * pos + 1 < heap.length) :
    pos < childsel ltb heap pos ∧ childsel ltb heap pos < heap.length := by
  unfold childsel
  split
  · rename_i hc
    simp only [Bool.and_eq_true, decide_eq_true_eq] at hc
    omega
  · omega

/-- Loop of heapq._siftup: repeatedly move the smaller child up, following
that child, until a childless position is reached; returns the list before
the final write, together with the final position.  The first argument is a
structural fuel counter: the loop strictly increases pos while it stays
below the (unchanged) length, so any fuel of at least the heap length
completes the loop. -/
def siftupLoop : Nat → List α → Nat → List α × Nat
  | 0, heap, pos => (heap, pos)
  | fuel + 1, heap, pos =>
    if 2 * pos + 1 < heap.length then
      siftupLoop fuel (heap.set pos (heap.getD (childsel ltb heap pos) default))
        (childsel ltb heap pos)
    else (heap, pos)

/-- Embedding of heapq._siftup(heap, pos): move the vacated slot to a
leaf position, write newitem there, then sift it down toward pos. -/
def siftup (heap : List α) (pos : Nat) : List α :=
  let newitem := heap.getD pos default
  let hp := siftupLoop ltb heap.length heap pos
  siftdown ltb (hp.1.set hp.2 newitem) pos hp.2

/-- Descending loop of heapq.heapify: sift at positions i-1, i-2, ..., 0. -/
def heapifyAux (heap : List α) : Nat → List α
  | 0 => heap
  | i + 1 => heapifyAux (siftup ltb heap i) i

/-- Embedding of heapq.heapify(x): for i in reversed(range(n//2)): _siftup(x, i). -/
def heapify (heap : List α) : List α :=
  heapifyAux ltb heap (heap.length / 2)

/-- Embedding of heapq.heappush(heap, item): append then _siftdown from the
last position. -/
def heappush (heap : List α) (item : α) : List α :=
  siftdown ltb (heap ++ [item]) 0 heap.length

/-- Embedding of heapq.heappop(heap): pop the last element; if the heap is
still non-empty, take the root as result, move the popped element to the
root and _siftup; popping an empty list raises IndexError (modelled none). -/
def heappop (heap : List α) : Option (α × List α) :=
  match heap.getLast? with
  | none => none
  | some lastelt =>
    match heap.dropLast with
    | [] => some (lastelt, [])
    | r0 :: rest => some (r0, siftup ltb ((r0 :: rest).set 0 lastelt) 0)

end Heapq

namespace Heapq

variable {α : Type} [Inhabited α] (ltb : α → α → Bool)

/-- Writing x at a valid index permutes into consing x onto the list with
that index removed. -/
theorem set_perm : ∀ (l : List α) (i : Nat) (x : α), i < l.length →
    List.Perm (l.set i x) (x :: l.eraseIdx i)
  | _ :: _, 0, _, _ => List.Perm.refl _
  | a :: t, i + 1, x, h =>
    ((set_perm t i x (by simpa using h)).cons a).trans (List.Perm.swap x a _)

/-- A list is a permutation of its element at a valid index consed onto the
list with that index removed. -/
theorem getD_eraseIdx_perm : ∀ (l : List α) (i : Nat), i < l.length →
    List.Perm l (l.getD i default :: l.eraseIdx i)
  | _ :: _, 0, _ => List.Perm.refl _
  | a :: t, i + 1, h =>
    ((getD_eraseIdx_perm t i (by simpa using h)).cons a).trans (List.Perm.swap _ a _)

/-- Copying the element of index j over index i and then overwriting index j
permutes into a single write at index i. -/
theorem set_set_perm : ∀ (l : List α) (i j : Nat) (x : α), i ≠ j →
    i < l.length → j < l.length →
    List.Perm ((l.set i (l.getD j default)).set j x) (l.set i x)
  | [], _, _, _, _, hi, _ => absurd hi (by simp)
  | _ :: _, 0, 0, _, hne, _, _ => absurd rfl hne
  | a :: t, 0, j + 1, x, _, _, hj => by
    have hj' : j < t.length := by simpa using hj
    have h1 : List.Perm (t.set j x) (x :: t.eraseIdx j) := set_perm t j x hj'
    have h2 : List.Perm t (t.getD j default :: t.eraseIdx j) :=
      getD_eraseIdx_perm t j hj'
    show List.Perm (t.getD j default :: t.set j x) (x :: t)
    exact ((h1.cons _).trans (List.Perm.swap _ _ _)).trans ((h2.cons x).symm)
  | a :: t, i + 1, 0, x, _, hi, _ => by
    have hi' : i < t.length := by simpa using hi
    have h1 : List.Perm (t.set i a) (a :: t.eraseIdx i) := set_perm t i a hi'
    have h2 : List.Perm (t.set i x) (x :: t.eraseIdx i) := set_perm t i x hi'
    show List.Perm (x :: t.set i a) (a :: t.set i x)
    exact ((h1.cons x).trans (List.Perm.swap a x _)).trans ((h2.cons a).symm)
  | a :: t, i + 1, j + 1, x, hne, hi, hj => by
    have := set_set_perm t i j x (by omega) (by simpa using hi) (by simpa using hj)
    exact this.cons a

/-- Writing back the element already at a valid index leaves the list
unchanged. -/
theorem set_getD_self : ∀ (l : List α) (i : Nat), i < l.length →
    l.set i (l.getD i default) = l
  | _ :: _, 0, _ => rfl
  | a :: t, i + 1, h => by
    simpa using set_getD_self t i (by simpa using h)

/-- The siftdown loop, given enough fuel, keeps its position in range, keeps
the length, and its result with newitem written at the final position
permutes into the original list with newitem written at the starting
position. -/
theorem siftdownLoop_spec (startpos : Nat) (newitem : α) :
    ∀ (fuel : Nat) (heap : List α) (pos : Nat), pos ≤ fuel → pos < heap.length →
    (siftdownLoop ltb startpos newitem fuel heap pos).2 <
        (siftdownLoop ltb startpos newitem fuel heap pos).1.length ∧
      (siftdownLoop ltb startpos newitem fuel heap pos).1.length = heap.length ∧
      List.Perm
        ((siftdownLoop ltb startpos newitem fuel heap pos).1.set
          (siftdownLoop ltb startpos newitem fuel heap pos).2 newitem)
        (heap.set pos newitem)
  | 0, heap, pos, _, hpos => ⟨hpos, rfl, List.Perm.refl _⟩
  | fuel + 1, heap, pos, hf, hpos => by
    simp only [siftdownLoop]
    by_cases h1 : startpos < pos
    · rw [if_pos h1]
      by_cases h2 : ltb newitem (heap.getD ((pos - 1) / 2) default) = true
      · rw [if_pos h2]
        obtain ⟨a1, a2, a3⟩ := siftdownLoop_spec startpos newitem fuel
          (heap.set pos (heap.getD ((pos - 1) / 2) default)) ((pos - 1) / 2)
          (by omega) (by simp only [List.length_set]; omega)
        refine ⟨a1, by simpa using a2, a3.trans ?_⟩
        exact set_set_perm heap pos ((pos - 1) / 2) newitem (by omega) hpos (by omega)
      · rw [if_neg h2]
        exact ⟨hpos, rfl, List.Perm.refl _⟩
    · rw [if_neg h1]
      exact ⟨hpos, rfl, List.Perm.refl _⟩

/-- Sifting down at a valid position permutes the heap. -/
theorem siftdown_perm (heap : List α) (startpos pos : Nat) (h : pos < heap.length) :
    List.Perm (siftdown ltb heap startpos pos) heap := by
  obtain ⟨h1, h2, h3⟩ :=
    siftdownLoop_spec ltb startpos (heap.getD pos default) pos heap pos (by omega) h
  unfold siftdown
  exact h3.trans (by rw [set_getD_self heap pos h])

/-- Length is preserved by siftdown at a valid position. -/
theorem siftdown_length (heap : List α) (startpos pos : Nat) (h : pos < heap.length) :
    (siftdown ltb heap startpos pos).length = heap.length :=
  (siftdown_perm ltb heap startpos pos h).length_eq

/-- The siftup loop, given enough fuel, keeps its position in range, keeps
the length, and its result with any x written at the final position
permutes into the original list with x written at the starting position. -/
theorem siftupLoop_spec :
    ∀ (fuel : Nat) (heap : List α) (pos : Nat), heap.length ≤ fuel + pos →
      pos < heap.length → ∀ x : α,
    (siftupLoop ltb fuel heap pos).2 < (siftupLoop ltb fuel heap pos).1.length ∧
      (siftupLoop ltb fuel heap pos).1.length = heap.length ∧
      List.Perm
        ((siftupLoop ltb fuel heap pos).1.set (siftupLoop ltb fuel heap pos).2 x)
        (heap.set pos x)
  | 0, heap, pos, _, hpos, x => ⟨hpos, rfl, List.Perm.refl _⟩
  | fuel + 1, heap, pos, hf, hpos, x => by
    simp only [siftupLoop]
    by_cases hchild : 2 * pos + 1 < heap.length
    · rw [if_pos hchild]
      obtain ⟨hcgt, hclt⟩ := childsel_lt ltb heap pos hchild
      obtain ⟨h1, h2, h3⟩ := siftupLoop_spec fuel
        (heap.set pos (heap.getD (childsel ltb heap pos) default))
        (childsel ltb heap pos)
        (by simp only [List.length_set]; omega) (by simpa using hclt) x
      refine ⟨h1, by simpa using h2, h3.trans ?_⟩
      exact set_set_perm heap pos (childsel ltb heap pos) x (by omega) hpos hclt
    · rw [if_neg hchild]
      exact ⟨hpos, rfl, List.Perm.refl _⟩

/-- Sifting up at a valid position permutes the heap. -/
theorem siftup_perm (heap : List α) (pos : Nat) (h : pos < heap.length) :
    List.Perm (siftup ltb heap pos) heap := by
  obtain ⟨h1, h2, h3⟩ := siftupLoop_spec ltb heap.length heap pos (by omega) h
    (heap.getD pos default)
  unfold siftup
  have hp2 : (siftupLoop ltb heap.length heap pos).2 <
      ((siftupLoop ltb heap.length heap pos).1.set
        (siftupLoop ltb heap.length heap pos).2 (heap.getD pos default)).length := by
    simpa using h1
  exact ((siftdown_perm ltb _ pos _ hp2).trans h3).trans
    (by rw [set_getD_self heap pos h])

/-- Length is preserved by siftup at a valid position. -/
theorem siftup_length (heap : List α) (pos : Nat) (h : pos < heap.length) :
    (siftup ltb heap pos).length = heap.length :=
  (siftup_perm ltb heap pos h).length_eq

/-- The heapify loop permutes the heap. -/
theorem heapifyAux_perm : ∀ (k : Nat) (heap : List α), k ≤ heap.length →
    List.Perm (heapifyAux ltb heap k) heap
  | 0, heap, _ => List.Perm.refl _
  | k + 1, heap, hk => by
    have hk' : k < heap.length := by omega
    have h1 := siftup_perm ltb heap k hk'
    have h2 := heapifyAux_perm k (siftup ltb heap k)
      (by rw [siftup_length ltb heap k hk']; omega)
    exact h2.trans h1

/-- heapify permutes its input. -/
theorem heapify_perm (heap : List α) : List.Perm (heapify ltb heap) heap :=
  heapifyAux_perm ltb (heap.length / 2) heap (by omega)

/-- heappush produces a permutation of the pushed element consed on the heap. -/
theorem heappush_perm (heap : List α) (item : α) :
    List.Perm (heappush ltb heap item) (item :: heap) := by
  have h : heap.length < (heap ++ [item]).length := by simp
  exact (siftdown_perm ltb (heap ++ [item]) 0 heap.length h).trans
    (List.perm_append_singleton item heap)

/-- A successful heappop splits the heap, up to permutation, into the popped
element and the remaining heap. -/
theorem heappop_perm (heap : List α) (x : α) (rest : List α)
    (h : heappop ltb heap = some (x, rest)) : List.Perm (x :: rest) heap := by
  rcases List.eq_nil_or_concat heap with hnil | ⟨l', b, hcat⟩
  · simp [heappop, hnil] at h
  · rw [List.concat_eq_append] at hcat
    subst hcat
    rw [heappop, List.getLast?_concat, List.dropLast_concat] at h
    match hl : l', h with
    | [], h =>
      simp only [hl] at h
      obtain ⟨rfl, rfl⟩ := by simpa using h
      exact List.Perm.refl _
    | r0 :: t, h =>
      simp only [hl, Option.some.injEq, Prod.mk.injEq] at h
      obtain ⟨rfl, rfl⟩ := h
      have hlen : 0 < ((r0 :: t).set 0 b).length := by simp
      have h1 : List.Perm (siftup ltb ((r0 :: t).set 0 b) 0) (b :: t) :=
        siftup_perm ltb _ 0 hlen
      exact ((h1.cons r0).trans (List.Perm.swap b r0 t)).trans
        (List.perm_append_singleton b (r0 :: t)).symm

/-- A successful heappop shrinks the heap length by one. -/
theorem heappop_length (heap : List α) (x : α) (rest : List α)
    (h : heappop ltb heap = some (x, rest)) : rest.length + 1 = heap.length := by
  simpa using (heappop_perm ltb heap x rest h).length_eq

/-- heappush grows the heap length by one. -/
theorem heappush_length (heap : List α) (item : α) :
    (heappush ltb heap item).length = heap.length + 1 := by
  simpa using (heappush_perm ltb heap item).length_eq

/-- heappop on a non-empty heap succeeds. -/
theorem heappop_isSome (heap : List α) (h : heap ≠ []) :
    (heappop ltb heap).isSome := by
  rcases List.eq_nil_or_concat heap with hnil | ⟨l', b, hcat⟩
  · exact absurd hnil h
  · rw [List.concat_eq_append] at hcat
    subst hcat
    rw [heappop, List.getLast?_concat, List.dropLast_concat]
    match l' with
    | [] => rfl
    | r0 :: t => rfl

end Heapq

/-- Errors of the Python program: the uncaught exceptions its embedded
fragments can raise. -/
inductive PyError where
  | indexError
  | valueError
  | attributeError
deriving Repr, DecidableEq

/-- Merge loop of build_huffman_tree: while len(priority_queue) > 1, pop the
two lowest-frequency nodes and push an internal node combining them (first
popped on the left, second on the right, char None, frequency the sum).  The
first argument is a structural fuel counter: each iteration shrinks the
queue by one, so any fuel of at least the queue length completes the loop. -/
def buildLoop : Nat → List HNode → List HNode
  | 0, pq => pq
  | fuel + 1, pq =>
    if 1 < pq.length then
      match Heapq.heappop HNode.lt pq with
      | none => pq
      | some (left, pq1) =>
        match Heapq.heappop HNode.lt pq1 with
        | none => pq1
        | some (right, pq2) =>
          buildLoop fuel (Heapq.heappush HNode.lt pq2
            (HNode.mk none (left.freq + right.freq) (some left) (some right)))
    else pq

/-- Embedding of build_huffman_tree: heapify the leaf nodes made from the
frequency table (one per entry, in the dict's insertion order), run the
merge loop, and return the root priority_queue[0]; indexing the empty queue
raises IndexError (modelled as none). -/
def build_huffman_tree (frequencies : List (Char × Nat)) : Option HNode :=
  (buildLoop frequencies.length (Heapq.heapify HNode.lt
    (frequencies.map (fun cf => HNode.mk (some cf.1) cf.2 none none)))).head?

/-- Assignment d[k] = v on a Python insertion-ordered dict: replace the value
in place when the key is present, otherwise append the new pair at the end. -/
def dictSet (k : Char) (v : List Bool) :
    List (Char × List Bool) → List (Char × List Bool)
  | [] => [(k, v)]
  | (k', v') :: rest =>
    if k' = k then (k, v) :: rest else (k', v') :: dictSet k v rest

/-- Walk of generate_prefix_code on a present (non-None) node: record
symbol → path at a char-bearing node, then recurse left with '0' (false)
appended and right with '1' (true) appended, skipping absent children as the
None check of the source does. -/
def gpcNode : HNode → List Bool → List (Char × List Bool) →
    List (Char × List Bool)
  | .mk c _ none none, pfx, code_table =>
    (match c with | some ch => dictSet ch pfx code_table | none => code_table)
  | .mk c _ (some a) none, pfx, code_table =>
    gpcNode a (pfx ++ [false])
      (match c with | some ch => dictSet ch pfx code_table | none => code_table)
  | .mk c _ none (some b), pfx, code_table =>
    gpcNode b (pfx ++ [true])
      (match c with | some ch => dictSet ch pfx code_table | none => code_table)
  | .mk c _ (some a) (some b), pfx, code_table =>
    gpcNode b (pfx ++ [true]) (gpcNode a (pfx ++ [false])
      (match c with | some ch => dictSet ch pfx code_table | none => code_table))
termination_by structural t => t

/-- Embedding of generate_prefix_code: a call on None returns the table
unchanged, a call on a node performs the recording walk. -/
def generate_prefix_code (node : Option HNode) (pfx : List Bool)
    (code_table : List (Char × List Bool)) : List (Char × List Bool) :=
  match node with
  | none => code_table
  | some t => gpcNode t pfx code_table

/-- Update frequencies[char] = frequencies.get(char, 0) + 1 on the
insertion-ordered dict. -/
def bump (c : Char) : List (Char × Nat) → List (Char × Nat)
  | [] => [(c, 1)]
  | (k, v) :: rest => if k = c then (k, v + 1) :: rest else (k, v) :: bump c rest

/-- Embedding of count_character_frequencies over the already-read character
stream of the input file. -/
def count_character_frequencies (s : List Char) : List (Char × Nat) :=
  s.foldl (fun acc c => bump c acc) []

/-- Value of a bit string read as a big-endian binary numeral (int(s, 2)). -/
def ofBits (l : List Bool) : Nat :=
  l.foldl (fun acc b => 2 * acc + (if b then 1 else 0)) 0

/-- Byte-conversion loop of pack_bits over the padded bit string: convert
8 bits at a time.  The first argument is a structural fuel counter: each
iteration shortens the list, so any fuel of at least its length completes
the loop. -/
def packLoop : Nat → List Bool → List Nat
  | 0, _ => []
  | fuel + 1, l => if l = [] then [] else ofBits (l.take 8) :: packLoop fuel (l.drop 8)

/-- Embedding of pack_bits: append the (8 - len % 8) % 8 '0' pad bits
(false), then pack each 8-bit group as an unsigned big-endian byte value. -/
def pack_bits (bit_string : List Bool) : List Nat :=
  packLoop (bit_string.length + 8)
    (bit_string ++ List.replicate ((8 - bit_string.length % 8) % 8) false)

/-- The w-digit big-endian binary digits of n, as produced for bytes by the
width-8 zero-padded binary format of decode step 4. -/
def toBits : Nat → Nat → List Bool
  | 0, _ => []
  | w + 1, n => toBits w (n / 2) ++ [n % 2 == 1]

/-- Decode steps 4 and 5: expand each payload byte to its 8 big-endian binary
digits, concatenate, and truncate to the declared logical bit length. -/
def unpack_bits (compressed_data : List Nat) (bit_string_length : Nat) :
    List Bool :=
  ((compressed_data.map (toBits 8)).flatten).take bit_string_length

/-- Traversal loop of decode step 6: follow each bit to the left ('0', false)
or right child; when the reached node carries a char, emit it and reset to
the root.  Stepping to a missing child leaves current_node as None, and the
char access on it raises AttributeError. -/
def decodeLoop (huffman_root : HNode) (current_node : HNode) :
    List Bool → Except PyError (List Char)
  | [] => .ok []
  | bit :: rest =>
    match (if bit = false then current_node.left else current_node.right) with
    | none => .error .attributeError
    | some n =>
      match n.char with
      | some ch => (decodeLoop huffman_root huffman_root rest).map (ch :: ·)
      | none => decodeLoop huffman_root n rest

/-- Embedding of decode_compressed_file on the parsed header fields and the
payload bytes: rebuild the tree from the frequencies, expand and truncate the
bit string, then traverse.  The returned character list models the text
written to the output file. -/
def decode_compressed_file (frequencies : List (Char × Nat))
    (bit_string_length : Nat) (compressed_data : List Nat) :
    Except PyError (List Char) :=
  match build_huffman_tree frequencies with
  | none => .error .indexError
  | some huffman_root =>
    decodeLoop huffman_root huffman_root
      (unpack_bits compressed_data bit_string_length)

/-- Bit-string emission loop of main: look each character up in the prefix
code table and concatenate the codes; a character missing from the table
raises ValueError. -/
def encodeBits (prefix_code_table : List (Char × List Bool)) :
    List Char → Except PyError (List Bool)
  | [] => .ok []
  | c :: rest =>
    match prefix_code_table.lookup c with
    | some code => (encodeBits prefix_code_table rest).map (code ++ ·)
    | none => .error .valueError

/-- Embedding of main's compression pipeline on the already-read character
stream: count frequencies, build the tree, generate the code table, emit the
bit string, and return the header fields (frequencies and bit string length)
together with the packed payload. -/
def main_compress (s : List Char) :
    Except PyError (List (Char × Nat) × Nat × List Nat) :=
  let frequencies := count_character_frequencies s
  match build_huffman_tree frequencies with
  | none => .error .indexError
  | some huffman_root =>
    match encodeBits (generate_prefix_code (some huffman_root) [] []) s with
    | .error e => .error e
    | .ok bit_string =>
      .ok (frequencies, bit_string.length, pack_bits bit_string)

/-- Compression followed by decompression of the produced header fields and
payload. -/
def roundTrip (s : List Char) : Except PyError (List Char) :=
  match main_compress s with
  | .error e => .error e
  | .ok (frequencies, bit_string_length, compressed_data) =>
    decode_compressed_file frequencies bit_string_length compressed_data

/-- Characters held by the char-bearing nodes of a tree, in walk order. -/
def HNode.chars : HNode → List Char
  | .mk c _ l r =>
    (match c with | some ch => [ch] | none => []) ++
      (match l with | some a => a.chars | none => []) ++
      (match r with | some b => b.chars | none => [])
termination_by structural t => t

/-- Number of char-bearing (leaf) nodes of a tree. -/
def HNode.countLeaves : HNode → Nat
  | .mk c _ l r =>
    (match c with | some _ => 1 | none => 0) +
      (match l with | some a => a.countLeaves | none => 0) +
      (match r with | some b => b.countLeaves | none => 0)
termination_by structural t => t

/-- Number of char-less (internal) nodes of a tree. -/
def HNode.countInternal : HNode → Nat
  | .mk c _ l r =>
    (match c with | some _ => 0 | none => 1) +
      (match l with | some a => a.countInternal | none => 0) +
      (match r with | some b => b.countInternal | none => 0)
termination_by structural t => t

/-- Shape invariant of the trees the merge loop builds: a char-bearing node
has no children, and a char-less node has exactly two well-shaped children —
in particular no node has exactly one child. -/
def HNode.goodShape : HNode → Bool
  | .mk c _ none none => c.isSome
  | .mk c _ (some a) (some b) => c.isNone && a.goodShape && b.goodShape
  | .mk _ _ _ _ => false
termination_by structural t => t

/-- A well-shaped tree has one internal node fewer than it has leaves. -/
theorem good_count : (t : HNode) → t.goodShape = true →
    t.countInternal + 1 = t.countLeaves
  | .mk c f none none => by
    intro h
    cases c with
    | some ch => simp [HNode.countLeaves, HNode.countInternal]
    | none => simp [HNode.goodShape] at h
  | .mk c f (some a) none => by
    intro h
    simp [HNode.goodShape] at h
  | .mk c f none (some b) => by
    intro h
    simp [HNode.goodShape] at h
  | .mk c f (some a) (some b) => by
    intro h
    simp only [HNode.goodShape, Bool.and_eq_true] at h
    obtain ⟨⟨hc, ha⟩, hb⟩ := h
    have h1 := good_count a ha
    have h2 := good_count b hb
    cases c with
    | some ch => simp at hc
    | none =>
      simp only [HNode.countLeaves, HNode.countInternal]
      omega

/-- The walk-order char list has one entry per leaf. -/
theorem chars_length : (t : HNode) → t.chars.length = t.countLeaves
  | .mk c f none none => by
    rw [HNode.chars.eq_def, HNode.countLeaves.eq_def]
    cases c <;> simp
  | .mk c f (some a) none => by
    rw [HNode.chars.eq_def, HNode.countLeaves.eq_def]
    have ha := chars_length a
    cases c <;> simp [List.length_append, ha] <;> omega
  | .mk c f none (some b) => by
    rw [HNode.chars.eq_def, HNode.countLeaves.eq_def]
    have hb := chars_length b
    cases c <;> simp [List.length_append, hb] <;> omega
  | .mk c f (some a) (some b) => by
    rw [HNode.chars.eq_def, HNode.countLeaves.eq_def]
    have ha := chars_length a
    have hb := chars_length b
    cases c <;> simp [List.length_append, ha, hb] <;> omega

/-- Flattening a list of singletons of the keys gives the keys. -/
theorem flatten_singletons : ∀ l : List (Char × Nat),
    (l.map (fun cf => [cf.1])).flatten = l.map Prod.fst
  | [] => rfl
  | _ :: rest => by simp [flatten_singletons rest]

/-- Reading the big-endian digits of a bit string and re-printing them at
the bit string's own width gives the bit string back. -/
theorem toBits_ofBits (l : List Bool) : toBits l.length (ofBits l) = l := by
  induction l using List.reverseRecOn with
  | nil => rfl
  | append_singleton l b ih =>
    have hv : ofBits (l ++ [b]) = 2 * ofBits l + (if b then 1 else 0) := by
      simp [ofBits, List.foldl_append]
    cases b with
    | false =>
      have hv0 : ofBits (l ++ [false]) = 2 * ofBits l := by rw [hv]; rfl
      rw [List.length_append, hv0, List.length_singleton, toBits]
      have h1 : 2 * ofBits l / 2 = ofBits l := by omega
      have h2 : 2 * ofBits l % 2 = 0 := by omega
      rw [h1, h2, ih]
      rfl
    | true =>
      have hv1 : ofBits (l ++ [true]) = 2 * ofBits l + 1 := by rw [hv]; rfl
      rw [List.length_append, hv1, List.length_singleton, toBits]
      have h1 : (2 * ofBits l + 1) / 2 = ofBits l := by omega
      have h2 : (2 * ofBits l + 1) % 2 = 1 := by omega
      rw [h1, h2, ih]
      rfl

/-- The pack loop on an empty list yields no bytes, whatever the fuel. -/
theorem packLoop_nil : ∀ fuel : Nat, packLoop fuel [] = []
  | 0 => rfl
  | _ + 1 => rfl

/-- Expanding every byte the pack loop produced, with enough fuel and on a
byte-aligned bit string, restores the bit string. -/
theorem packLoop_flatten : ∀ (fuel : Nat) (l : List Bool), l.length ≤ fuel →
    l.length % 8 = 0 → ((packLoop fuel l).map (toBits 8)).flatten = l
  | 0, l, hf, _ => by
    have : l = [] := List.length_eq_zero.mp (by omega)
    subst this
    rfl
  | fuel + 1, l, hf, h8 => by
    by_cases hl : l = []
    · subst hl; rfl
    · have hpos : 0 < l.length := List.length_pos.mpr hl
      have h8le : 8 ≤ l.length := by omega
      have htake : (l.take 8).length = 8 := by
        rw [List.length_take]; omega
      have hdrop : (l.drop 8).length = l.length - 8 := List.length_drop 8 l
      rw [packLoop, if_neg hl]
      simp only [List.map_cons, List.flatten_cons]
      rw [packLoop_flatten fuel (l.drop 8) (by omega) (by omega)]
      have := toBits_ofBits (l.take 8)
      rw [htake] at this
      rw [this, List.take_append_drop]

/-- The pack loop produces one byte per started group of 8 bits. -/
theorem packLoop_length : ∀ (fuel : Nat) (l : List Bool), l.length ≤ fuel →
    (packLoop fuel l).length = (l.length + 7) / 8
  | 0, l, hf => by
    have : l = [] := List.length_eq_zero.mp (by omega)
    subst this
    rfl
  | fuel + 1, l, hf => by
    by_cases hl : l = []
    · subst hl; rfl
    · have hpos : 0 < l.length := List.length_pos.mpr hl
      have hdrop : (l.drop 8).length = l.length - 8 := List.length_drop 8 l
      rw [packLoop, if_neg hl]
      simp only [List.length_cons]
      rw [packLoop_length fuel (l.drop 8) (by omega)]
      omega

/-- A byte printed at width 8 has 8 digits (and width w in general w digits). -/
theorem toBits_length : ∀ (w n : Nat), (toBits w n).length = w
  | 0, _ => rfl
  | w + 1, n => by
    rw [toBits, List.length_append, toBits_length w (n / 2)]
    rfl

/-- The joined bit expansion of a byte list has 8 bits per byte. -/
theorem flatten_toBits_length (bytes : List Nat) :
    ((bytes.map (toBits 8)).flatten).length = 8 * bytes.length := by
  induction bytes with
  | nil => rfl
  | cons b rest ih =>
    simp only [List.map_cons, List.flatten_cons, List.length_append, ih,
      toBits_length, List.length_cons]
    omega

/-- The merge loop, on a non-empty queue of well-shaped trees and with fuel
at least one less than the queue length, ends with a single well-shaped tree
whose chars are a permutation of all the queue trees' chars together. -/
theorem buildLoop_spec : ∀ (fuel : Nat) (pq : List HNode), pq ≠ [] →
    pq.length ≤ fuel + 1 → (∀ t ∈ pq, t.goodShape = true) →
    ∃ t, buildLoop fuel pq = [t] ∧ t.goodShape = true ∧
      List.Perm t.chars (pq.map HNode.chars).flatten
  | 0, pq, hne, hlen, hg => by
    have hpos : 0 < pq.length := List.length_pos.mpr hne
    have h1 : pq.length = 1 := by omega
    obtain ⟨t, rfl⟩ := List.length_eq_one.mp h1
    exact ⟨t, rfl, hg t (by simp), by simpa using List.Perm.refl t.chars⟩
  | fuel + 1, pq, hne, hlen, hg => by
    simp only [buildLoop]
    by_cases hl : 1 < pq.length
    · rw [if_pos hl]
      have hs1 := Heapq.heappop_isSome HNode.lt pq hne
      cases hpop1 : Heapq.heappop HNode.lt pq with
      | none => rw [hpop1] at hs1; simp at hs1
      | some p1 =>
        obtain ⟨left, pq1⟩ := p1
        have hperm1 := Heapq.heappop_perm HNode.lt pq left pq1 hpop1
        have hlen1 := Heapq.heappop_length HNode.lt pq left pq1 hpop1
        have hne1 : pq1 ≠ [] := by
          have : 0 < pq1.length := by omega
          exact List.length_pos.mp this
        have hs2 := Heapq.heappop_isSome HNode.lt pq1 hne1
        cases hpop2 : Heapq.heappop HNode.lt pq1 with
        | none => rw [hpop2] at hs2; simp at hs2
        | some p2 =>
          obtain ⟨right, pq2⟩ := p2
          have hperm2 := Heapq.heappop_perm HNode.lt pq1 right pq2 hpop2
          have hlen2 := Heapq.heappop_length HNode.lt pq1 right pq2 hpop2
          simp only [hpop1, hpop2]
          have hleft : left ∈ pq := hperm1.mem_iff.mp (by simp)
          have hright : right ∈ pq := hperm1.mem_iff.mp
            (List.mem_cons_of_mem left (hperm2.mem_iff.mp (by simp)))
          have hmem1 : ∀ x ∈ pq1, x ∈ pq := fun x hx =>
            hperm1.mem_iff.mp (List.mem_cons_of_mem left hx)
          have hmem2 : ∀ x ∈ pq2, x ∈ pq := fun x hx =>
            hmem1 x (hperm2.mem_iff.mp (List.mem_cons_of_mem right hx))
          set merged := HNode.mk none (left.freq + right.freq) (some left)
            (some right) with hmdef
          have hgm : merged.goodShape = true := by
            simp [hmdef, HNode.goodShape, hg left hleft, hg right hright]
          have hpush := Heapq.heappush_perm HNode.lt pq2 merged
          have hpushlen := Heapq.heappush_length HNode.lt pq2 merged
          have hne' : Heapq.heappush HNode.lt pq2 merged ≠ [] := by
            have : 0 < (Heapq.heappush HNode.lt pq2 merged).length := by omega
            exact List.length_pos.mp this
          have hg' : ∀ t ∈ Heapq.heappush HNode.lt pq2 merged, t.goodShape = true := by
            intro t ht
            rcases List.mem_cons.mp (hpush.mem_iff.mp ht) with h | h
            · rw [h]; exact hgm
            · exact hg t (hmem2 t h)
          obtain ⟨t, ht1, ht2, ht3⟩ := buildLoop_spec fuel
            (Heapq.heappush HNode.lt pq2 merged) hne' (by omega) hg'
          refine ⟨t, ht1, ht2, ht3.trans ?_⟩
          have e1 : List.Perm ((Heapq.heappush HNode.lt pq2 merged).map HNode.chars).flatten
              (merged.chars ++ (pq2.map HNode.chars).flatten) := by
            simpa using (hpush.map HNode.chars).flatten
          have e2 : List.Perm (left.chars ++ (pq1.map HNode.chars).flatten)
              ((pq.map HNode.chars).flatten) := by
            simpa using (hperm1.map HNode.chars).flatten
          have e3 : List.Perm (right.chars ++ (pq2.map HNode.chars).flatten)
              ((pq1.map HNode.chars).flatten) := by
            simpa using (hperm2.map HNode.chars).flatten
          have hmc : merged.chars = left.chars ++ right.chars := by
            simp [hmdef, HNode.chars]
          refine e1.trans ?_
          rw [hmc, List.append_assoc]
          exact (e3.append_left left.chars).trans e2
    · rw [if_neg hl]
      have hpos : 0 < pq.length := List.length_pos.mpr hne
      have h1 : pq.length = 1 := by omega
      obtain ⟨t, rfl⟩ := List.length_eq_one.mp h1
      exact ⟨t, rfl, hg t (by simp), by simpa using List.Perm.refl t.chars⟩

/-- Building from a non-empty frequency table yields a well-shaped tree
whose chars are a permutation of the table's keys. -/
theorem build_spec (freqs : List (Char × Nat)) (hne : freqs ≠ []) :
    ∃ t, build_huffman_tree freqs = some t ∧ t.goodShape = true ∧
      List.Perm t.chars (freqs.map Prod.fst) := by
  have hperm0 := Heapq.heapify_perm HNode.lt
    (freqs.map (fun cf => HNode.mk (some cf.1) cf.2 none none))
  have hlen0 := hperm0.length_eq
  have hfpos : 0 < freqs.length := List.length_pos.mpr hne
  have hne' : Heapq.heapify HNode.lt
      (freqs.map (fun cf => HNode.mk (some cf.1) cf.2 none none)) ≠ [] := by
    apply List.length_pos.mp
    rw [hlen0]
    simpa using hfpos
  have hg' : ∀ t ∈ Heapq.heapify HNode.lt
      (freqs.map (fun cf => HNode.mk (some cf.1) cf.2 none none)),
      t.goodShape = true := by
    intro t ht
    have := hperm0.mem_iff.mp ht
    obtain ⟨cf, _, rfl⟩ := List.mem_map.mp this
    rfl
  obtain ⟨t, ht1, ht2, ht3⟩ := buildLoop_spec freqs.length _ hne'
    (by rw [hlen0]; simp) hg'
  refine ⟨t, ?_, ht2, ?_⟩
  · rw [build_huffman_tree, ht1]; rfl
  · refine ht3.trans ?_
    have := (hperm0.map HNode.chars).flatten
    refine this.trans ?_
    rw [List.map_map]
    have : HNode.chars ∘ (fun cf : Char × Nat => HNode.mk (some cf.1) cf.2 none none)
        = fun cf => [cf.1] := by
      funext cf
      rfl
    rw [this, flatten_singletons]

/-- Symbol-to-path pairs recorded by a walk of the tree from a given path:
the pure value of the code table the walk builds past a fresh table. -/
def codesOf : HNode → List Bool → List (Char × List Bool)
  | .mk c _ l r, pfx =>
    (match c with | some ch => [(ch, pfx)] | none => []) ++
      (match l with | some a => codesOf a (pfx ++ [false]) | none => []) ++
      (match r with | some b => codesOf b (pfx ++ [true]) | none => [])
termination_by structural t => t

/-- The keys of the recorded pairs are the tree's chars in walk order. -/
theorem codesOf_keys : (t : HNode) → (pfx : List Bool) →
    (codesOf t pfx).map Prod.fst = t.chars
  | .mk c f l r, pfx => by
    rw [codesOf.eq_def, HNode.chars.eq_def]
    have hl : ∀ pfx' : List Bool,
        (match l with | some a => codesOf a pfx' | none => []).map Prod.fst
          = (match l with | some a => a.chars | none => []) := by
      intro pfx'
      cases l with
      | none => rfl
      | some a => exact codesOf_keys a pfx'
    have hr : ∀ pfx' : List Bool,
        (match r with | some b => codesOf b pfx' | none => []).map Prod.fst
          = (match r with | some b => b.chars | none => []) := by
      intro pfx'
      cases r with
      | none => rfl
      | some b => exact codesOf_keys b pfx'
    cases c with
    | some ch => simp [hl, hr]
    | none => simp [hl, hr]

/-- Every recorded path extends the walk's starting path. -/
theorem codesOf_extend : (t : HNode) → (pfx : List Bool) →
    ∀ e ∈ codesOf t pfx, ∃ s, e.2 = pfx ++ s
  | .mk c f l r, pfx => by
    rw [codesOf.eq_def]
    intro e he
    simp only [List.mem_append] at he
    rcases he with (hc | hl) | hr
    · cases c with
      | some ch =>
        simp only [List.mem_singleton] at hc
        exact ⟨[], by simp [hc]⟩
      | none => simp at hc
    · cases l with
      | some a =>
        obtain ⟨s, hs⟩ := codesOf_extend a (pfx ++ [false]) e hl
        exact ⟨[false] ++ s, by simp [hs]⟩
      | none => simp at hl
    · cases r with
      | some b =>
        obtain ⟨s, hs⟩ := codesOf_extend b (pfx ++ [true]) e hr
        exact ⟨[true] ++ s, by simp [hs]⟩
      | none => simp at hr

/-- Two paths extending the same path by opposite bits never satisfy the
prefix relation, in either direction. -/
theorem opposite_not_prefix (p s t : List Bool) :
    ¬ (p ++ [false] ++ s) <+: (p ++ [true] ++ t) ∧
      ¬ (p ++ [true] ++ t) <+: (p ++ [false] ++ s) := by
  constructor
  · intro h
    rw [List.append_assoc, List.append_assoc, List.prefix_append_right_inj] at h
    simp only [List.singleton_append, List.cons_prefix_cons] at h
    exact absurd h.1 (by simp)
  · intro h
    rw [List.append_assoc, List.append_assoc, List.prefix_append_right_inj] at h
    simp only [List.singleton_append, List.cons_prefix_cons] at h
    exact absurd h.1 (by simp)

/-- Walks of well-shaped trees record pairwise prefix-incomparable paths. -/
theorem codesOf_pairwise : (t : HNode) → t.goodShape = true → (pfx : List Bool) →
    (codesOf t pfx).Pairwise
      (fun e1 e2 => ¬ e1.2 <+: e2.2 ∧ ¬ e2.2 <+: e1.2)
  | .mk c f none none, hg, pfx => by
    rw [codesOf.eq_def]
    cases c with
    | some ch => simp
    | none => simp [HNode.goodShape] at hg
  | .mk c f (some a) none, hg, pfx => by
    simp [HNode.goodShape] at hg
  | .mk c f none (some b), hg, pfx => by
    simp [HNode.goodShape] at hg
  | .mk c f (some a) (some b), hg, pfx => by
    simp only [HNode.goodShape, Bool.and_eq_true] at hg
    obtain ⟨⟨hc, ha⟩, hb⟩ := hg
    cases c with
    | some ch => simp at hc
    | none =>
      rw [codesOf.eq_def]
      simp only [List.nil_append]
      rw [List.pairwise_append]
      refine ⟨codesOf_pairwise a ha (pfx ++ [false]),
        codesOf_pairwise b hb (pfx ++ [true]), ?_⟩
      intro e1 he1 e2 he2
      obtain ⟨s1, hs1⟩ := codesOf_extend a (pfx ++ [false]) e1 he1
      obtain ⟨s2, hs2⟩ := codesOf_extend b (pfx ++ [true]) e2 he2
      rw [hs1, hs2]
      exact opposite_not_prefix pfx s1 s2

/-- Writing a fresh key into a dict appends the pair at the end. -/
theorem dictSet_append : ∀ (tbl : List (Char × List Bool)) (k : Char)
    (v : List Bool), k ∉ tbl.map Prod.fst → dictSet k v tbl = tbl ++ [(k, v)]
  | [], _, _, _ => rfl
  | (k', v') :: rest, k, v, hk => by
    have hne : k' ≠ k := by
      intro h
      exact hk (by simp [h])
    have hk' : k ∉ rest.map Prod.fst := by
      intro h
      exact hk (by simp [h])
    rw [dictSet, if_neg hne, dictSet_append rest k v hk']
    rfl

/-- On a well-shaped tree with distinct chars, all fresh for the incoming
table, the recording walk appends exactly its recorded pairs to the table. -/
theorem gpcNode_eq : (t : HNode) → t.goodShape = true → (pfx : List Bool) →
    ∀ tbl : List (Char × List Bool), t.chars.Nodup →
    (∀ k ∈ tbl.map Prod.fst, k ∉ t.chars) →
    gpcNode t pfx tbl = tbl ++ codesOf t pfx
  | .mk c f none none, hg, pfx, tbl, hnd, hfresh => by
    cases c with
    | none => simp [HNode.goodShape] at hg
    | some ch =>
      have hfr : ch ∉ tbl.map Prod.fst := by
        intro h
        exact hfresh ch h (show ch ∈ [ch] by simp)
      show dictSet ch pfx tbl = tbl ++ [(ch, pfx)]
      exact dictSet_append tbl ch pfx hfr
  | .mk c f (some a) none, hg, pfx, tbl, _, _ => by
    simp [HNode.goodShape] at hg
  | .mk c f none (some b), hg, pfx, tbl, _, _ => by
    simp [HNode.goodShape] at hg
  | .mk c f (some a) (some b), hg, pfx, tbl, hnd, hfresh => by
    simp only [HNode.goodShape, Bool.and_eq_true] at hg
    obtain ⟨⟨hc, ha⟩, hb⟩ := hg
    cases c with
    | some ch => simp at hc
    | none =>
      have hnd' : (a.chars ++ b.chars).Nodup := hnd
      rw [List.nodup_append] at hnd'
      obtain ⟨hnda, hndb, hdisj⟩ := hnd'
      have hfresh' : ∀ k ∈ tbl.map Prod.fst, k ∉ a.chars ++ b.chars := hfresh
      show gpcNode b (pfx ++ [true]) (gpcNode a (pfx ++ [false]) tbl)
          = tbl ++ (codesOf a (pfx ++ [false]) ++ codesOf b (pfx ++ [true]))
      rw [gpcNode_eq a ha (pfx ++ [false]) tbl hnda (fun k hk hmem =>
        hfresh' k hk (List.mem_append.mpr (Or.inl hmem)))]
      rw [gpcNode_eq b hb (pfx ++ [true]) (tbl ++ codesOf a (pfx ++ [false])) hndb ?_]
      · rw [List.append_assoc]
      · intro k hk
        rw [List.map_append, codesOf_keys] at hk
        rcases List.mem_append.mp hk with hk | hk
        · exact fun hmem => hfresh' k hk (List.mem_append.mpr (Or.inr hmem))
        · exact fun hmem => hdisj hk hmem

/-- A well-shaped char-less node has two well-shaped children. -/
theorem good_internal_shape : (t : HNode) → t.goodShape = true → t.char = none →
    ∃ f a b, t = .mk none f (some a) (some b) ∧
      a.goodShape = true ∧ b.goodShape = true
  | .mk c f none none, hg, hc => by
    cases c with
    | some ch => simp [HNode.char] at hc
    | none => simp [HNode.goodShape] at hg
  | .mk c f (some a) none, hg, _ => by simp [HNode.goodShape] at hg
  | .mk c f none (some b), hg, _ => by simp [HNode.goodShape] at hg
  | .mk c f (some a) (some b), hg, hc => by
    simp only [HNode.goodShape, Bool.and_eq_true] at hg
    obtain ⟨⟨hcn, ha⟩, hb⟩ := hg
    cases c with
    | some ch => simp at hcn
    | none => exact ⟨f, a, b, rfl, ha, hb⟩

/-- A well-shaped tree with at least two leaves has a char-less root. -/
theorem good_two_char_none : (t : HNode) → t.goodShape = true →
    2 ≤ t.countLeaves → t.char = none
  | .mk c f none none, hg, h2 => by
    cases c with
    | some ch =>
      rw [HNode.countLeaves.eq_def] at h2
      simp at h2
    | none => rfl
  | .mk c f (some a) none, hg, _ => by simp [HNode.goodShape] at hg
  | .mk c f none (some b), hg, _ => by simp [HNode.goodShape] at hg
  | .mk c f (some a) (some b), hg, _ => by
    simp only [HNode.goodShape, Bool.and_eq_true] at hg
    obtain ⟨⟨hcn, _⟩, _⟩ := hg
    cases c with
    | some ch => simp at hcn
    | none => rfl

/-- A well-shaped single-leaf tree is a childless node. -/
theorem good_single : (t : HNode) → t.goodShape = true → t.countLeaves = 1 →
    t.left = none ∧ t.right = none
  | .mk c f none none, _, _ => ⟨rfl, rfl⟩
  | .mk c f (some a) none, hg, _ => by simp [HNode.goodShape] at hg
  | .mk c f none (some b), hg, _ => by simp [HNode.goodShape] at hg
  | .mk c f (some a) (some b), hg, h1 => by
    simp only [HNode.goodShape, Bool.and_eq_true] at hg
    obtain ⟨⟨hcn, ha⟩, hb⟩ := hg
    have hA := good_count a ha
    have hB := good_count b hb
    cases c with
    | some ch => simp at hcn
    | none =>
      rw [HNode.countLeaves.eq_def] at h1
      simp only [] at h1
      omega

/-- The traversal loop never fails when both the root and the current node
are well-shaped char-less nodes: every bit resolves to a child, and a bit
string ending mid-code simply ends the loop with the output so far. -/
theorem decodeLoop_ok : ∀ (bits : List Bool) (root current : HNode),
    root.goodShape = true → root.char = none →
    current.goodShape = true → current.char = none →
    ∃ out, decodeLoop root current bits = .ok out
  | [], _, _, _, _, _, _ => ⟨[], rfl⟩
  | bit :: rest, root, current, hgr, hcr, hgc, hcc => by
    obtain ⟨f, a, b, rfl, ha, hb⟩ := good_internal_shape current hgc hcc
    cases bit with
    | false =>
      cases hac : a.char with
      | some ch =>
        obtain ⟨out, hout⟩ := decodeLoop_ok rest root root hgr hcr hgr hcr
        exact ⟨ch :: out, by simp [decodeLoop, HNode.left, hac, hout, Except.map]⟩
      | none =>
        obtain ⟨out, hout⟩ := decodeLoop_ok rest root a hgr hcr ha hac
        exact ⟨out, by simp [decodeLoop, HNode.left, hac, hout]⟩
    | true =>
      cases hbc : b.char with
      | some ch =>
        obtain ⟨out, hout⟩ := decodeLoop_ok rest root root hgr hcr hgr hcr
        exact ⟨ch :: out, by simp [decodeLoop, HNode.right, hbc, hout, Except.map]⟩
      | none =>
        obtain ⟨out, hout⟩ := decodeLoop_ok rest root b hgr hcr hb hbc
        exact ⟨out, by simp [decodeLoop, HNode.right, hbc, hout]⟩

/-- Decoding with a frequency table of at least two distinct symbols always
succeeds, whatever the declared bit length and payload. -/
theorem decode_ok (freqs : List (Char × Nat)) (L : Nat) (payload : List Nat)
    (h2 : 2 ≤ freqs.length) :
    ∃ out, decode_compressed_file freqs L payload = .ok out := by
  have hne : freqs ≠ [] := by
    intro h
    subst h
    simp at h2
  obtain ⟨t, hb, hg, hperm⟩ := build_spec freqs hne
  have hleaves : t.countLeaves = freqs.length := by
    rw [← chars_length, hperm.length_eq, List.length_map]
  have hcn : t.char = none := good_two_char_none t hg (by omega)
  obtain ⟨out, hout⟩ := decodeLoop_ok (unpack_bits payload L) t t hg hcn hg hcn
  refine ⟨out, ?_⟩
  rw [decode_compressed_file, hb]
  exact hout

/-- Truncating the expanded payload to any length at or beyond its full
8-bits-per-byte size leaves the whole expansion. -/
theorem unpack_full (payload : List Nat) (L : Nat) (h : 8 * payload.length ≤ L) :
    unpack_bits payload L = unpack_bits payload (8 * payload.length) := by
  unfold unpack_bits
  rw [List.take_of_length_le, List.take_of_length_le] <;>
    rw [flatten_toBits_length] <;> omega

/-- Claim C1 at the failing input "aa" (a single-symbol sequence): the
encode/decode round trip returns the empty output rather than the original
sequence, because the sole symbol's code is the empty bit-string and the
decoder's traversal loop emits nothing for it. -/
theorem claim_C1_eval : roundTrip ['a', 'a'] = .ok [] ∧
    roundTrip ['a', 'a'] ≠ .ok ['a', 'a'] := by
  refine ⟨rfl, ?_⟩
  intro h
  rw [show roundTrip ['a', 'a'] = .ok [] from rfl] at h
  simp at h

/-- Claim C2 at the spec's own scenario "aaaa": encoding yields the header
(frequencies {a: 4}, logical bit length 0) with an empty payload, and
decoding that header and payload emits the symbol zero times, not once per
occurrence recorded in the frequency table. -/
theorem claim_C2_eval :
    main_compress ['a', 'a', 'a', 'a'] = .ok ([('a', 4)], 0, []) ∧
      decode_compressed_file [('a', 4)] 0 [] = .ok [] := ⟨rfl, rfl⟩

/-- Claim C3: for every bit-string b, unpacking the packed bytes of b with
logical bit length len(b) — expanding each byte to 8 big-endian binary
digits, concatenating, and truncating to len(b) digits — returns exactly
b. -/
theorem claim_C3 (b : List Bool) : unpack_bits (pack_bits b) b.length = b := by
  unfold pack_bits unpack_bits
  have hlen : (b ++ List.replicate ((8 - b.length % 8) % 8) false).length
      = b.length + (8 - b.length % 8) % 8 := by simp
  rw [packLoop_flatten (b.length + 8) _ (by rw [hlen]; omega) (by rw [hlen]; omega)]
  exact List.take_left b _

/-- Claim C4 counterexample: decoding a valid header with a zero-byte
payload while the declared logical bit length is positive succeeds with
empty output; no TruncationError (nor any failure) occurs. -/
theorem claim_C4_counterexample :
    decode_compressed_file [('a', 1), ('b', 2), ('c', 4)] 5 [] = .ok [] := rfl

/-- Claim C4 amended: decode performs no truncation check; when the declared
logical bit length exceeds the 8 * len(payload) available bits, the bit
string is silently truncated to what is available and decoding proceeds
exactly as if the declared length were 8 * len(payload). -/
theorem claim_C4_amended (freqs : List (Char × Nat)) (L : Nat)
    (payload : List Nat) (h : 8 * payload.length ≤ L) :
    decode_compressed_file freqs L payload =
      decode_compressed_file freqs (8 * payload.length) payload := by
  unfold decode_compressed_file
  rw [unpack_full payload L h]

/-- Witness for the amended claim C4 at a concrete header and payload. -/
theorem claim_C4_amended_witness :
    8 * ([(0 : Nat)]).length ≤ 9 ∧
      decode_compressed_file [('a', 1), ('b', 2)] 9 [0] =
        decode_compressed_file [('a', 1), ('b', 2)] (8 * [(0 : Nat)].length) [0] :=
  ⟨by decide, claim_C4_amended [('a', 1), ('b', 2)] 9 [0] (by decide)⟩

/-- Claim C5: building a Huffman tree from a frequency table with zero
entries fails (priority_queue[0] on the empty queue — the failure the spec
names EmptyInputError), and therefore encoding an empty symbol sequence
fails the same way, producing no header/payload pair. -/
theorem claim_C5 : build_huffman_tree [] = none ∧
    main_compress [] = .error .indexError := ⟨rfl, rfl⟩

/-- Claim C6 counterexample: a bit string that ends mid-code (2 declared
bits against codes a = 00, b = 01, c = 1 of the table {a:1, b:2, c:4}) makes
decode return the partial output ['c'] successfully — no CorruptStreamError,
and the partial decoded output is kept, not discarded. -/
theorem claim_C6_counterexample :
    decode_compressed_file [('a', 1), ('b', 2), ('c', 4)] 2 [128] = .ok ['c'] := rfl

/-- Claim C6 amended: with at least two distinct symbols the traversal can
never fail — every bit resolves to a child and a bit string ending mid-code
yields the successfully decoded prefix as output; a missing-child
dereference happens only when the rebuilt root is itself a leaf, and then
decode raises an uncaught AttributeError (NoneType has no attribute char),
not a CorruptStreamError. -/
theorem claim_C6_amended :
    (∀ (freqs : List (Char × Nat)) (L : Nat) (payload : List Nat),
        2 ≤ freqs.length →
        ∃ out, decode_compressed_file freqs L payload = .ok out) ∧
      decode_compressed_file [('a', 4)] 3 [0] = .error .attributeError :=
  ⟨fun freqs L payload h2 => decode_ok freqs L payload h2, rfl⟩

/-- Witness for the amended claim C6 at a concrete header and payload. -/
theorem claim_C6_amended_witness :
    2 ≤ ([(('a' : Char), 1), ('b', 2)] : List (Char × Nat)).length ∧
      ∃ out, decode_compressed_file [('a', 1), ('b', 2)] 1 [0] = .ok out :=
  ⟨by decide, claim_C6_amended.1 [('a', 1), ('b', 2)] 1 [0] (by decide)⟩

/-- Claim C7: for every non-empty frequency table of N entries, the built
tree exists, has exactly N leaves (char-bearing nodes) and N - 1 internal
(char-less) nodes, is well shaped — every internal node has exactly two
children and no node has exactly one child — and for N = 1 the root is a
single leaf without children. -/
theorem claim_C7 (freqs : List (Char × Nat)) (hne : freqs ≠ []) :
    ∃ t, build_huffman_tree freqs = some t ∧
      t.countLeaves = freqs.length ∧
      t.countInternal + 1 = freqs.length ∧
      t.goodShape = true ∧
      (freqs.length = 1 → t.left = none ∧ t.right = none) := by
  obtain ⟨t, hb, hg, hperm⟩ := build_spec freqs hne
  have hleaves : t.countLeaves = freqs.length := by
    rw [← chars_length, hperm.length_eq, List.length_map]
  refine ⟨t, hb, hleaves, ?_, hg, ?_⟩
  · rw [← hleaves]
    exact good_count t hg
  · intro h1
    exact good_single t hg (by omega)

/-- Witness for claim C7 at the concrete table {a:1, b:2, c:4}. -/
theorem claim_C7_witness :
    ([(('a' : Char), 1), ('b', 2), ('c', 4)] : List (Char × Nat)) ≠ [] ∧
      ∃ t, build_huffman_tree [('a', 1), ('b', 2), ('c', 4)] = some t ∧
        t.countLeaves = [(('a' : Char), 1), ('b', 2), ('c', 4)].length ∧
        t.countInternal + 1 = [(('a' : Char), 1), ('b', 2), ('c', 4)].length ∧
        t.goodShape = true ∧
        ([(('a' : Char), 1), ('b', 2), ('c', 4)].length = 1 →
          t.left = none ∧ t.right = none) :=
  ⟨by decide, claim_C7 [('a', 1), ('b', 2), ('c', 4)] (by decide)⟩

/-- Claim C8: running tree construction followed by code-table generation
twice on an identical frequency table (as at encode time and again at decode
time) yields identical code tables; the embedded pipeline is a pure function
of the insertion-ordered table, with no other source of variation. -/
theorem claim_C8 (f1 f2 : List (Char × Nat)) (h : f1 = f2) :
    (build_huffman_tree f1).map
        (fun root => generate_prefix_code (some root) [] []) =
      (build_huffman_tree f2).map
        (fun root => generate_prefix_code (some root) [] []) := by
  rw [h]

/-- Witness for claim C8 at a concrete table with a frequency tie. -/
theorem claim_C8_witness :
    ([(('a' : Char), 1), ('b', 1)] : List (Char × Nat)) = [('a', 1), ('b', 1)] ∧
      (build_huffman_tree [(('a' : Char), 1), ('b', 1)]).map
          (fun root => generate_prefix_code (some root) [] []) =
        (build_huffman_tree [(('a' : Char), 1), ('b', 1)]).map
          (fun root => generate_prefix_code (some root) [] []) :=
  ⟨rfl, claim_C8 [('a', 1), ('b', 1)] [('a', 1), ('b', 1)] rfl⟩

/-- Claim C9: a code table generated from a tree built from a duplicate-free
frequency table is prefix-free: between any two distinct entries, neither
code is a prefix of the other. -/
theorem claim_C9 (freqs : List (Char × Nat)) (root : HNode)
    (hnd : (freqs.map Prod.fst).Nodup)
    (hb : build_huffman_tree freqs = some root)
    (h2 : 2 ≤ (generate_prefix_code (some root) [] []).length) :
    (generate_prefix_code (some root) [] []).Pairwise
      (fun e1 e2 => ¬ e1.2 <+: e2.2 ∧ ¬ e2.2 <+: e1.2) := by
  have hne : freqs ≠ [] := by
    intro h
    subst h
    rw [show build_huffman_tree [] = none from rfl] at hb
    exact Option.noConfusion hb
  obtain ⟨t, hb', hg, hperm⟩ := build_spec freqs hne
  rw [hb] at hb'
  injection hb' with ht
  subst ht
  have hndc : root.chars.Nodup := (hperm.nodup_iff).mpr hnd
  have hgpc : generate_prefix_code (some root) [] [] = codesOf root [] := by
    show gpcNode root [] [] = codesOf root []
    rw [gpcNode_eq root hg [] [] hndc (by simp)]
    rfl
  rw [hgpc]
  exact codesOf_pairwise root hg []

/-- Witness for claim C9 at the concrete table {a:1, b:2, c:4} and its
actually built tree. -/
theorem claim_C9_witness :
    (([(('a' : Char), 1), ('b', 2), ('c', 4)] : List (Char × Nat)).map
        Prod.fst).Nodup ∧
      build_huffman_tree [('a', 1), ('b', 2), ('c', 4)] =
        some (.mk none 7
          (some (.mk none 3 (some (.mk (some 'a') 1 none none))
            (some (.mk (some 'b') 2 none none))))
          (some (.mk (some 'c') 4 none none))) ∧
      (generate_prefix_code (some (.mk none 7
          (some (.mk none 3 (some (.mk (some 'a') 1 none none))
            (some (.mk (some 'b') 2 none none))))
          (some (.mk (some 'c') 4 none none)))) [] []).Pairwise
        (fun e1 e2 => ¬ e1.2 <+: e2.2 ∧ ¬ e2.2 <+: e1.2) :=
  ⟨by decide, rfl,
    claim_C9 [('a', 1), ('b', 2), ('c', 4)] _ (by decide) rfl (by decide)⟩

/-- Claim C10: pack_bits emits exactly ceil(len(b) / 8) bytes; in
particular the empty bit string (the single-symbol case) packs to an empty
byte sequence. -/
theorem claim_C10 :
    (∀ b : List Bool, (pack_bits b).length = (b.length + 7) / 8) ∧
      pack_bits [] = [] := by
  refine ⟨?_, rfl⟩
  intro b
  unfold pack_bits
  have hlen : (b ++ List.replicate ((8 - b.length % 8) % 8) false).length
      = b.length + (8 - b.length % 8) % 8 := by simp
  rw [packLoop_length (b.length + 8) _ (by rw [hlen]; omega), hlen]
  omega

/-- Witness for claim C3 at a concrete three-bit string. -/
theorem claim_C3_witness :
    unpack_bits (pack_bits [true, false, true]) 3 = [true, false, true] :=
  claim_C3 [true, false, true]
